import Mathlib

/-!
Verification of the core of `ralph_slack_bot.py`: thread-to-task routing,
feedback-file merging, tracker loading, reverse lookup, and the PID-file
singleton helpers.  File contents and paths are modelled as `List Char`;
the file system is a partial map from paths to contents.
-/

set_option maxHeartbeats 1000000

/-- Characters Python `str.strip` / `str.lstrip` treat as whitespace
(the ASCII subset; other Unicode whitespace does not occur in the data). -/
def pyWs (c : Char) : Bool :=
  c = ' ' || c = '\t' || c = '\n' || c = '\r' || c = '\x0b' || c = '\x0c'

/-- Python `str.lstrip()` with no argument. -/
def lstrip (s : List Char) : List Char := s.dropWhile pyWs

/-- Python `str.rstrip()` with no argument. -/
def rstrip (s : List Char) : List Char := (lstrip s.reverse).reverse

/-- Python `str.strip()` with no argument. -/
def pyStrip (s : List Char) : List Char := lstrip (rstrip s)

/-- Split at the first occurrence of `pat`: models Python `s.split(pat, 1)`,
returning `some (before, after)` when the separator occurs and `none`
when it does not (in which case Python returns the single-element list). -/
def splitFirst (pat : List Char) : List Char → Option (List Char × List Char)
  | [] => if pat.isPrefixOf ([] : List Char) then some ([], []) else none
  | c :: rest =>
    if pat.isPrefixOf (c :: rest) then some ([], (c :: rest).drop pat.length)
    else (splitFirst pat rest).map fun p => (c :: p.1, p.2)

/-- First-match association-list lookup.  A Python `dict` has unique keys,
so this is exactly dict lookup on the model's association lists. -/
def alookup {V : Type} (k : List Char) : List (List Char × V) → Option V
  | [] => none
  | (k', v) :: rest => if k' = k then some v else alookup k rest

/-- Python `d[k] = v` on an association list with unique keys: replace the
first (hence only) binding of `k` in place, or append a new one at the end. -/
def dinsert {V : Type} : List (List Char × V) → List Char → V →
    List (List Char × V)
  | [], k, v => [(k, v)]
  | (k', v') :: rest, k, v =>
    if k' = k then (k, v) :: rest else (k', v') :: dinsert rest k v

/-- The keys of an association list, in order. -/
def keysOf {V : Type} (m : List (List Char × V)) : List (List Char) :=
  m.map Prod.fst

/-- Values produced by `json.loads`.  JSON numbers are modelled as integers
only: fractional or exponent literals are outside the model and make the
modelled parser fail. -/
inductive JVal where
  | jnull
  | jbool (b : Bool)
  | jnum (n : Int)
  | jstr (s : List Char)
  | jarr (xs : List JVal)
  | jobj (fields : List (List Char × JVal))

/-- Python `repr()` of a JSON value, used by `str()` on non-string values.
String bodies are emitted verbatim between single quotes (the escaping
`repr` performs inside string literals is not modelled). -/
def pyRepr : JVal → List Char
  | .jnull => "None".toList
  | .jbool true => "True".toList
  | .jbool false => "False".toList
  | .jnum n => (toString n).toList
  | .jstr s => Char.ofNat 39 :: s ++ [Char.ofNat 39]
  | .jarr xs => '[' :: pyReprSeq xs ++ [']']
  | .jobj fs => Char.ofNat 123 :: pyReprFields fs ++ [Char.ofNat 125]
where
  pyReprSeq : List JVal → List Char
    | [] => []
    | [x] => pyRepr x
    | x :: y :: xs => pyRepr x ++ ", ".toList ++ pyReprSeq (y :: xs)
  pyReprFields : List (List Char × JVal) → List Char
    | [] => []
    | [(k, v)] =>
      Char.ofNat 39 :: k ++ Char.ofNat 39 :: ": ".toList ++ pyRepr v
    | (k, v) :: f :: fs =>
      Char.ofNat 39 :: k ++ Char.ofNat 39 :: ": ".toList ++ pyRepr v ++
        ", ".toList ++ pyReprFields (f :: fs)

/-- Python `str()` of a JSON value, as used by the f-string
`f"{info['channel']}:{info['thread_ts']}"` that builds reverse-lookup keys. -/
def pyStr : JVal → List Char
  | .jstr s => s
  | v => pyRepr v

/-- Whitespace accepted between JSON tokens. -/
def jsonWsChar (c : Char) : Bool := c = ' ' || c = '\t' || c = '\n' || c = '\r'

/-- Skip JSON inter-token whitespace. -/
def skipJsonWs (s : List Char) : List Char := s.dropWhile jsonWsChar

/-- Value of a hexadecimal digit. -/
def hexVal (c : Char) : Option Nat :=
  if '0' ≤ c ∧ c ≤ '9' then some (c.toNat - 48)
  else if 'a' ≤ c ∧ c ≤ 'f' then some (c.toNat - 87)
  else if 'A' ≤ c ∧ c ≤ 'F' then some (c.toNat - 70)
  else none

/-- Decimal digit test. -/
def isDigitChar (c : Char) : Bool := '0' ≤ c && c ≤ '9'

/-- Digits to a natural number. -/
def digitsToNat (ds : List Char) : Nat :=
  ds.foldl (fun acc c => acc * 10 + (c.toNat - 48)) 0

/-- Body of a JSON string after the opening quote: returns the decoded
characters and the input after the closing quote.  Raw control characters
are rejected as `json.loads` does; `\uXXXX` uses `Char.ofNat` (surrogate
pairs are not recombined). -/
def parseStringBody : Nat → List Char → Option (List Char × List Char)
  | 0, _ => none
  | _ + 1, [] => none
  | fuel + 1, c :: rest =>
    if c = '"' then some ([], rest)
    else if c = '\\' then
      match rest with
      | [] => none
      | e :: rest2 =>
        if e = '"' then (parseStringBody fuel rest2).map fun p => ('"' :: p.1, p.2)
        else if e = '\\' then (parseStringBody fuel rest2).map fun p => ('\\' :: p.1, p.2)
        else if e = '/' then (parseStringBody fuel rest2).map fun p => ('/' :: p.1, p.2)
        else if e = 'b' then (parseStringBody fuel rest2).map fun p => (Char.ofNat 8 :: p.1, p.2)
        else if e = 'f' then (parseStringBody fuel rest2).map fun p => (Char.ofNat 12 :: p.1, p.2)
        else if e = 'n' then (parseStringBody fuel rest2).map fun p => ('\n' :: p.1, p.2)
        else if e = 'r' then (parseStringBody fuel rest2).map fun p => ('\r' :: p.1, p.2)
        else if e = 't' then (parseStringBody fuel rest2).map fun p => ('\t' :: p.1, p.2)
        else if e = 'u' then
          match rest2 with
          | h1 :: h2 :: h3 :: h4 :: rest3 =>
            match hexVal h1, hexVal h2, hexVal h3, hexVal h4 with
            | some a, some b, some c', some d =>
              (parseStringBody fuel rest3).map fun p =>
                (Char.ofNat (((a * 16 + b) * 16 + c') * 16 + d) :: p.1, p.2)
            | _, _, _, _ => none
          | _ => none
        else none
    else if c.toNat < 32 then none
    else (parseStringBody fuel rest).map fun p => (c :: p.1, p.2)

mutual
/-- Fueled recursive-descent JSON value parser (leading whitespace already
skipped).  Mirrors `json.loads` except that only integer numbers are
accepted (a fractional or exponent part makes the parse fail). -/
def parseVal : Nat → List Char → Option (JVal × List Char)
  | 0, _ => none
  | _ + 1, [] => none
  | fuel + 1, c :: rest =>
    if c = '"' then
      (parseStringBody (fuel + 1) rest).map fun p => (JVal.jstr p.1, p.2)
    else if c = '[' then
      match skipJsonWs rest with
      | ']' :: r => some (.jarr [], r)
      | r => (parseArrItems fuel r).map fun p => (JVal.jarr p.1, p.2)
    else if c = Char.ofNat 123 then
      match skipJsonWs rest with
      | d :: r =>
        if d = Char.ofNat 125 then some (.jobj [], r)
        else (parseObjItems fuel [] (d :: r)).map fun p => (JVal.jobj p.1, p.2)
      | [] => none
    else if c = 't' then
      match rest with
      | 'r' :: 'u' :: 'e' :: r => some (.jbool true, r)
      | _ => none
    else if c = 'f' then
      match rest with
      | 'a' :: 'l' :: 's' :: 'e' :: r => some (.jbool false, r)
      | _ => none
    else if c = 'n' then
      match rest with
      | 'u' :: 'l' :: 'l' :: r => some (.jnull, r)
      | _ => none
    else if c = '-' then
      match rest.span isDigitChar with
      | ([], _) => none
      | (ds, r) =>
        match r with
        | '.' :: _ => none
        | 'e' :: _ => none
        | 'E' :: _ => none
        | _ => some (.jnum (-(digitsToNat ds : Int)), r)
    else if isDigitChar c then
      match (c :: rest).span isDigitChar with
      | (ds, r) =>
        match r with
        | '.' :: _ => none
        | 'e' :: _ => none
        | 'E' :: _ => none
        | _ => some (.jnum (digitsToNat ds), r)
    else none

/-- Items of a JSON array after `[` (whitespace skipped, not `]`). -/
def parseArrItems : Nat → List Char → Option (List JVal × List Char)
  | 0, _ => none
  | fuel + 1, s =>
    match parseVal fuel s with
    | none => none
    | some (v, r) =>
      match skipJsonWs r with
      | ',' :: r2 =>
        (parseArrItems fuel (skipJsonWs r2)).map fun p => (v :: p.1, p.2)
      | ']' :: r2 => some ([v], r2)
      | _ => none

/-- Members of a JSON object after `{` (whitespace skipped, not `}`).
`acc` is the dict built so far; duplicate keys behave as successive
Python `dict` assignment (last occurrence wins, first position kept). -/
def parseObjItems : Nat → List (List Char × JVal) → List Char →
    Option (List (List Char × JVal) × List Char)
  | 0, _, _ => none
  | fuel + 1, acc, s =>
    match s with
    | '"' :: r0 =>
      match parseStringBody (fuel + 1) r0 with
      | none => none
      | some (k, r1) =>
        match skipJsonWs r1 with
        | ':' :: r2 =>
          match parseVal fuel (skipJsonWs r2) with
          | none => none
          | some (v, r3) =>
            match skipJsonWs r3 with
            | ',' :: r4 => parseObjItems fuel (dinsert acc k v) (skipJsonWs r4)
            | d :: r4 =>
              if d = Char.ofNat 125 then some (dinsert acc k v, r4) else none
            | [] => none
        | _ => none
    | _ => none
end

/-- `json.loads`: parse a whole document, allowing surrounding whitespace,
rejecting trailing data. -/
def parseJson (s : List Char) : Option JVal :=
  match parseVal (2 * s.length + 8) (skipJsonWs s) with
  | some (v, rest) => if skipJsonWs rest = [] then some v else none
  | none => none

/-- `_load_threads`: `none` models a missing tracker file, `some content` an
existing one; a missing file or unparseable content yields the empty dict
(the `JSONDecodeError` branch logs a warning and falls through to `{}`). -/
def loadThreads (file : Option (List Char)) : JVal :=
  match file with
  | none => .jobj []
  | some content =>
    match parseJson content with
    | some v => v
    | none => .jobj []

/-- `self.threads.items()`.  The Python code assumes the loaded value is a
JSON object; any other value raises `AttributeError` before any side
effect, so only the object case carries behaviour and is modelled. -/
def jitems : JVal → List (List Char × JVal)
  | .jobj fs => fs
  | _ => []

/-- Loop body of `_build_reverse_lookup`: values that are not dicts, or
lack `"thread_ts"` or `"channel"`, are skipped; the key is the f-string
`f"{info['channel']}:{info['thread_ts']}"`; assignment
`reverse[key] = plan_file` makes the last insertion win. -/
def revStep (rev : List (List Char × List Char)) (entry : List Char × JVal) :
    List (List Char × List Char) :=
  match entry.2 with
  | .jobj fs =>
    match alookup "thread_ts".toList fs, alookup "channel".toList fs with
    | some ts, some ch => dinsert rev (pyStr ch ++ ':' :: pyStr ts) entry.1
    | _, _ => rev
  | _ => rev

/-- `_build_reverse_lookup`: `channel:thread_ts -> plan_file`, built by
iterating `revStep` over `self.threads.items()` in insertion order. -/
def buildReverseLookup (items : List (List Char × JVal)) :
    List (List Char × List Char) :=
  items.foldl revStep []

/-- Index of the last occurrence of `c`, counting the head as index `i`. -/
def rfindAux (c : Char) : List Char → Nat → Option Nat
  | [], _ => none
  | d :: rest, i =>
    match rfindAux c rest (i + 1) with
    | some j => some j
    | none => if d = c then some i else none

/-- Index of the last occurrence of `c` in `s` (Python `str.rfind`, the
primitive `pathlib` uses to find the extension dot and the last slash). -/
def rfindChar (c : Char) (s : List Char) : Option Nat := rfindAux c s 0

/-- `pathlib.PurePath.stem` of a file name: the name with its last suffix
removed; a dot at position 0, or as the final character, starts no suffix. -/
def pstem (name : List Char) : List Char :=
  match rfindChar '.' name with
  | some i => if 0 < i ∧ i < name.length - 1 then name.take i else name
  | none => name

/-- `Path(p).name` for an already-normalised path: what follows the last
slash. -/
def pname (p : List Char) : List Char :=
  match rfindChar '/' p with
  | some i => p.drop (i + 1)
  | none => p

/-- `str(Path(p).parent)` for an already-normalised path. -/
def pparent (p : List Char) : List Char :=
  match rfindChar '/' p with
  | some i => if i = 0 then "/".toList else p.take i
  | none => ".".toList

/-- `str(Path(dir) / name)` for an already-normalised directory string. -/
def joinPath (dir name : List Char) : List Char :=
  if dir = ".".toList then name
  else if dir = "/".toList then '/' :: name
  else dir ++ '/' :: name

/-- `_get_feedback_file`: same directory as the plan file, file name
`stem + ".feedback.md"`. -/
def getFeedbackFile (plan : List Char) : List Char :=
  joinPath (pparent plan) (pstem (pname plan) ++ ".feedback.md".toList)

/-- The `"## Pending"` section marker. -/
def pendingMarker : List Char := "## Pending".toList

/-- The `"## Processed"` section marker. -/
def processedMarker : List Char := "## Processed".toList

/-- The rendered feedback bullet `- [timestamp] @user: message`. -/
def mkBullet (ts user msg : List Char) : List Char :=
  "- [".toList ++ ts ++ "] @".toList ++ user ++ ": ".toList ++ msg

/-- The skeleton `_write_feedback` synthesises when the feedback document
does not exist: `f"# Feedback: {plan_name}\n\n## Pending\n\n## Processed\n"`. -/
def skeleton (stem : List Char) : List Char :=
  "# Feedback: ".toList ++ stem ++ "\n\n## Pending\n\n## Processed\n".toList

/-- The text-merge step of `_write_feedback`: split at the first
`"## Pending"` and emit
`f"{before}## Pending\n- [ts] @user: message\n{after.lstrip()}"`;
with no marker, append `f"\n## Pending\n- [ts] @user: message\n"`. -/
def mergeFeedback (content ts user msg : List Char) : List Char :=
  match splitFirst pendingMarker content with
  | some (before, after) =>
    before ++ pendingMarker ++ '\n' :: mkBullet ts user msg ++ '\n' :: lstrip after
  | none =>
    content ++ '\n' :: pendingMarker ++ '\n' :: mkBullet ts user msg ++ ['\n']

/-- A file-system fragment: path → content, `none` for a missing file. -/
def FS : Type := List Char → Option (List Char)

/-- `_write_feedback`: read the feedback document (or synthesise the
skeleton), merge the new bullet, write the result back; returns the
updated file system and the feedback path (the function's return value). -/
def writeFeedback (fs : FS) (plan ts user msg : List Char) : FS × List Char :=
  let fb := getFeedbackFile plan
  let content :=
    match fs fb with
    | some c => c
    | none => skeleton (pstem (pname plan))
  let newContent := mergeFeedback content ts user msg
  (fun p => if p = fb then some newContent else fs p, fb)

/-- The fields `handle_message` reads from the event dict; `none` models an
absent key. -/
structure SlackEvent where
  thread_ts : Option (List Char)
  channel : Option (List Char)
  bot_id : Option (List Char)
  subtype : Option (List Char)
  user : Option (List Char)
  text : Option (List Char)

/-- Python truthiness of `event.get(k)` for a string-valued field. -/
def optTruthy : Option (List Char) → Bool
  | none => false
  | some s => !s.isEmpty

/-- `f"{x}"` where `x` may be `None` (which prints as `"None"`). -/
def optFmt : Option (List Char) → List Char
  | none => "None".toList
  | some s => s

/-- Observable outcome of one `handle_message` invocation. -/
structure HandleInfo where
  reloaded : Bool
  writtenPath : Option (List Char)
  author : Option (List Char)
  ack : Option (List Char)

/-- Outcome of an event discarded before the registry reload. -/
def noAction : HandleInfo := ⟨false, none, none, none⟩

/-- Outcome of an event discarded after the registry reload. -/
def reloadOnly : HandleInfo := ⟨true, none, none, none⟩

/-- The acknowledgment text sent back into the thread. -/
def ackText (fbName : List Char) : List Char :=
  ":white_check_mark: Feedback recorded in `".toList ++ fbName ++
    "`. Ralph will pick this up on the next iteration.".toList

/-- `handle_message`: the per-event state machine.  `fs` is the file
system, `trackerPath` the tracker file's path, `resolve` the directory
lookup (`client.users_info` plus the display-name fallback chain; `none`
models the `except` branch), `now` the pre-rendered timestamp. -/
def handleMessage (fs : FS) (trackerPath : List Char)
    (resolve : List Char → Option (List Char)) (now : List Char)
    (ev : SlackEvent) : FS × HandleInfo :=
  match ev.thread_ts with
  | none => (fs, noAction)
  | some ts =>
    if ts = [] then (fs, noAction)
    else
      let threadKey := optFmt ev.channel ++ ':' :: ts
      let rev := buildReverseLookup (jitems (loadThreads (fs trackerPath)))
      match alookup threadKey rev with
      | none => (fs, reloadOnly)
      | some plan =>
        if optTruthy ev.bot_id = true ∨ ev.subtype = some "bot_message".toList then
          (fs, reloadOnly)
        else
          let user := ev.user.getD "unknown".toList
          let text := ev.text.getD []
          if pyStrip text = [] then (fs, reloadOnly)
          else
            let display := (resolve user).getD user
            let res := writeFeedback fs plan now display text
            (res.1, ⟨true, some res.2, some display, some (ackText (pname res.2))⟩)

/-- State of the PID file and of the advisory lock on it. -/
structure PidState where
  content : Option (List Char)
  lockedByOther : Bool

/-- `_acquire_pid_lock`: `open(self.pid_file, "w")` creates or truncates
the PID file, then a non-blocking exclusive `flock` is attempted; on
contention the `except (IOError, OSError)` branch returns `False`. -/
def acquirePidLock (st : PidState) (pid : Nat) : Bool × PidState :=
  let opened : PidState := { st with content := some [] }
  if st.lockedByOther then (false, opened)
  else (true, { opened with content := some (toString pid).toList })

/-- Outcome of `os.kill(pid, 0)`: success, `ProcessLookupError` (no such
process), or `PermissionError` (the process exists but signalling it is
not permitted). -/
inductive KillResult where
  | ok
  | noSuchProcess
  | permissionDenied
deriving DecidableEq

/-- Python `int(s)` for a decimal literal: optional surrounding whitespace
and sign, then digits (digit-group underscores are not modelled).
`none` models `ValueError`. -/
def parsePyInt (s : List Char) : Option Int :=
  let t := pyStrip s
  match t with
  | '-' :: rest =>
    if rest ≠ [] ∧ rest.all isDigitChar then some (-(digitsToNat rest : Int)) else none
  | '+' :: rest =>
    if rest ≠ [] ∧ rest.all isDigitChar then some (digitsToNat rest) else none
  | _ =>
    if t ≠ [] ∧ t.all isDigitChar then some (digitsToNat t) else none

/-- `is_bot_running`: first component is the reported status, second the
resulting PID-file state (`none`: absent or deleted). -/
def isBotRunning (file : Option (List Char)) (kill0 : Int → KillResult) :
    Bool × Option (List Char) :=
  match file with
  | none => (false, none)
  | some content =>
    match parsePyInt (pyStrip content) with
    | none => (false, none)
    | some pid =>
      match kill0 pid with
      | .ok => (true, some content)
      | .noSuchProcess => (false, none)
      | .permissionDenied => (false, none)

/-! ### Lemmas about `splitFirst` -/

theorem splitFirst_eq_append {pat s b a : List Char}
    (h : splitFirst pat s = some (b, a)) : s = b ++ pat ++ a := by
  induction s generalizing b a with
  | nil =>
    rw [splitFirst] at h
    split at h
    · rename_i hp
      rw [List.isPrefixOf_iff_prefix] at hp
      have hpat : pat = [] := by simpa using hp
      simp only [Option.some.injEq, Prod.mk.injEq] at h
      simp [← h.1, ← h.2, hpat]
    · simp at h
  | cons c rest ih =>
    rw [splitFirst] at h
    split at h
    · rename_i hp
      rw [List.isPrefixOf_iff_prefix] at hp
      simp only [Option.some.injEq, Prod.mk.injEq] at h
      rw [← h.1, ← h.2, List.nil_append]
      conv_lhs => rw [← List.take_append_drop pat.length (c :: rest)]
      rw [← List.prefix_iff_eq_take.mp hp]
    · rename_i hp
      cases hs : splitFirst pat rest with
      | none => rw [hs] at h; simp at h
      | some p =>
        rw [hs] at h
        simp only [Option.map_some', Option.some.injEq, Prod.mk.injEq] at h
        rw [← h.1, ← h.2]
        simp [ih hs]

theorem splitFirst_eq_none_iff {pat s : List Char} :
    splitFirst pat s = none ↔ ¬ pat <:+: s := by
  induction s with
  | nil =>
    rw [splitFirst]
    split
    · rename_i hp
      rw [List.isPrefixOf_iff_prefix] at hp
      have hpat : pat = [] := by simpa using hp
      simp [hpat]
    · rename_i hp
      rw [List.isPrefixOf_iff_prefix] at hp
      have hpat : pat ≠ [] := by
        intro h; exact hp (h ▸ List.nil_prefix)
      simp [hpat]
  | cons c rest ih =>
    rw [splitFirst]
    split
    · rename_i hp
      rw [List.isPrefixOf_iff_prefix] at hp
      simp [hp.isInfix]
    · rename_i hp
      rw [List.isPrefixOf_iff_prefix] at hp
      rw [Option.map_eq_none', ih, List.infix_cons_iff]
      tauto

theorem splitFirst_self_append (pat r : List Char) :
    splitFirst pat (pat ++ r) = some ([], r) := by
  cases hpr : pat ++ r with
  | nil =>
    rw [List.append_eq_nil] at hpr
    obtain ⟨hp, hr⟩ := hpr
    subst hp; subst hr
    rw [splitFirst]
    simp [List.isPrefixOf_iff_prefix]
  | cons c rest =>
    rw [splitFirst]
    have hpre : pat.isPrefixOf (c :: rest) = true := by
      rw [List.isPrefixOf_iff_prefix, ← hpr]
      exact List.prefix_append pat r
    rw [if_pos hpre, ← hpr, List.drop_left]

theorem prefix_of_append_not_mem {pat x y : List Char} {c : Char}
    (hc : c ∉ pat) (h : pat <+: x ++ c :: y) : pat <+: x := by
  induction pat generalizing x with
  | nil => exact List.nil_prefix
  | cons p pr ih =>
    cases x with
    | nil =>
      rw [List.nil_append, List.cons_prefix_cons] at h
      exact absurd (h.1 ▸ List.mem_cons_self p pr) hc
    | cons xh xt =>
      rw [List.cons_append, List.cons_prefix_cons] at h
      rw [List.cons_prefix_cons]
      exact ⟨h.1, ih (fun hm => hc (List.mem_cons_of_mem p hm)) h.2⟩

theorem prefix_append_iff_of_le {pat x : List Char} (y : List Char)
    (hlen : pat.length ≤ x.length) : pat <+: x ++ y ↔ pat <+: x := by
  constructor
  · intro h
    rw [List.prefix_iff_eq_take] at h ⊢
    rw [List.take_append_eq_append_take, Nat.sub_eq_zero_of_le hlen,
      List.take_zero, List.append_nil] at h
    exact h
  · intro h
    exact h.trans (List.prefix_append x y)

theorem splitFirst_stable {pat b r : List Char}
    (h : splitFirst pat (b ++ pat ++ r) = some (b, r)) (r' : List Char) :
    splitFirst pat (b ++ pat ++ r') = some (b, r') := by
  induction b generalizing r r' with
  | nil => simpa using splitFirst_self_append pat r'
  | cons c b ih =>
    rw [List.cons_append, List.cons_append, splitFirst] at h ⊢
    split at h
    · simp at h
    · rename_i hp
      split
      · rename_i hp'
        exfalso
        rw [List.isPrefixOf_iff_prefix] at hp hp'
        apply hp
        have hx : ∀ z : List Char, c :: (b ++ pat ++ z) = (c :: b ++ pat) ++ z := by
          intro z; simp
        rw [hx] at hp' ⊢
        rw [prefix_append_iff_of_le _ (by simp; omega)] at hp' ⊢
        exact hp'
      · cases hs : splitFirst pat (b ++ pat ++ r) with
        | none => rw [hs] at h; simp at h
        | some p =>
          obtain ⟨p1, p2⟩ := p
          rw [hs] at h
          simp only [Option.map_some', Option.some.injEq, Prod.mk.injEq,
            List.cons.injEq, true_and] at h
          rw [h.1, h.2] at hs
          rw [ih hs r']
          simp

theorem splitFirst_after_sep {pat a r : List Char} {c : Char}
    (hn : c ∉ pat) (ha : ¬ pat <:+: a) :
    splitFirst pat (a ++ c :: (pat ++ r)) = some (a ++ [c], r) := by
  induction a with
  | nil =>
    rw [List.nil_append, splitFirst]
    have hnp : ¬ pat.isPrefixOf (c :: (pat ++ r)) = true := by
      rw [List.isPrefixOf_iff_prefix]
      intro hpre
      cases pat with
      | nil => exact ha List.nil_infix
      | cons p pr =>
        rw [List.cons_prefix_cons] at hpre
        exact hn (hpre.1 ▸ List.mem_cons_self p pr)
    rw [if_neg hnp, splitFirst_self_append]
    rfl
  | cons x xs ih =>
    have hxs : ¬ pat <:+: xs := fun hin => ha (List.infix_cons_iff.mpr (Or.inr hin))
    rw [List.cons_append, splitFirst]
    have hnp : ¬ pat.isPrefixOf (x :: (xs ++ c :: (pat ++ r))) = true := by
      rw [List.isPrefixOf_iff_prefix]
      intro hpre
      have hsh : x :: (xs ++ c :: (pat ++ r)) = (x :: xs) ++ c :: (pat ++ r) := by simp
      rw [hsh] at hpre
      exact ha (prefix_of_append_not_mem hn hpre).isInfix
    rw [if_neg hnp, ih hxs]
    rfl

theorem infix_append_sep_iff {pat a b : List Char} {c : Char} (hn : c ∉ pat) :
    pat <:+: a ++ c :: b ↔ pat <:+: a ∨ pat <:+: b := by
  constructor
  · intro h
    induction a with
    | nil =>
      rw [List.nil_append, List.infix_cons_iff] at h
      rcases h with h | h
      · cases pat with
        | nil => exact Or.inr List.nil_infix
        | cons p pr =>
          rw [List.cons_prefix_cons] at h
          exact absurd (h.1 ▸ List.mem_cons_self p pr) hn
      · exact Or.inr h
    | cons x xs ih =>
      rw [List.cons_append, List.infix_cons_iff] at h
      rcases h with h | h
      · have hsh : x :: (xs ++ c :: b) = (x :: xs) ++ c :: b := by simp
        rw [hsh] at h
        exact Or.inl (prefix_of_append_not_mem hn h).isInfix
      · rcases ih h with h' | h'
        · exact Or.inl (List.infix_cons_iff.mpr (Or.inr h'))
        · exact Or.inr h'
  · intro h
    rcases h with h | h
    · exact h.trans ((List.prefix_append a (c :: b)).isInfix)
    · exact h.trans ⟨a ++ [c], [], by simp⟩

theorem lstrip_cons_of_ws {c : Char} (h : pyWs c = true) (s : List Char) :
    lstrip (c :: s) = lstrip s := by
  unfold lstrip
  rw [List.dropWhile_cons_of_pos h]

theorem lstrip_cons_of_not_ws {c : Char} (h : pyWs c = false) (s : List Char) :
    lstrip (c :: s) = c :: s := by
  unfold lstrip
  rw [List.dropWhile_cons_of_neg (by simp [h])]

theorem lstrip_append_hash (a y : List Char) :
    lstrip (a ++ '#' :: y) = lstrip a ++ '#' :: y := by
  unfold lstrip
  rw [List.dropWhile_append]
  split
  · rename_i h
    rw [List.isEmpty_iff] at h
    rw [h, List.nil_append, List.dropWhile_cons_of_neg (by simp [pyWs])]
  · rfl

/-! ### Lemmas about `alookup`, `dinsert` and the reverse lookup -/

theorem alookup_dinsert_self {V : Type} (m : List (List Char × V))
    (k : List Char) (v : V) : alookup k (dinsert m k v) = some v := by
  induction m with
  | nil => rw [dinsert, alookup, if_pos rfl]
  | cons p m ih =>
    obtain ⟨k0, v0⟩ := p
    rw [dinsert]
    by_cases hk : k0 = k
    · rw [if_pos hk, alookup, if_pos rfl]
    · rw [if_neg hk, alookup, if_neg hk]
      exact ih

theorem alookup_dinsert_ne {V : Type} {k k' : List Char}
    (m : List (List Char × V)) (v : V) (hne : k' ≠ k) :
    alookup k' (dinsert m k v) = alookup k' m := by
  induction m with
  | nil =>
    rw [dinsert, alookup, alookup, if_neg (fun h => hne h.symm), alookup]
  | cons p m ih =>
    obtain ⟨k0, v0⟩ := p
    rw [dinsert]
    by_cases hk : k0 = k
    · rw [if_pos hk, alookup, alookup, if_neg (fun h => hne h.symm), hk,
        if_neg (fun h => hne h.symm)]
    · rw [if_neg hk, alookup, alookup]
      split
      · rfl
      · exact ih

theorem alookup_eq_none_iff {V : Type} {m : List (List Char × V)} {k : List Char} :
    alookup k m = none ↔ k ∉ keysOf m := by
  induction m with
  | nil => simp [alookup, keysOf]
  | cons p m ih =>
    obtain ⟨k', v'⟩ := p
    rw [alookup, keysOf, List.map_cons]
    by_cases hk : k' = k
    · subst hk
      rw [if_pos rfl]
      constructor
      · intro h; exact Option.noConfusion h
      · intro h; exact absurd (List.mem_cons_self _ _) h
    · rw [if_neg hk]
      simp only [List.mem_cons]
      rw [ih]
      unfold keysOf
      constructor
      · intro h hmem
        rcases hmem with hmem | hmem
        · exact hk hmem.symm
        · exact h hmem
      · intro h hmem
        exact h (Or.inr hmem)

theorem mem_keysOf_dinsert {V : Type} {x k : List Char} {v : V}
    {m : List (List Char × V)} :
    x ∈ keysOf (dinsert m k v) ↔ x ∈ keysOf m ∨ x = k := by
  induction m with
  | nil =>
    show x ∈ [k] ↔ x ∈ ([] : List (List Char)) ∨ x = k
    simp
  | cons p m ih =>
    obtain ⟨k0, v0⟩ := p
    rw [dinsert]
    by_cases hk : k0 = k
    · subst hk
      rw [if_pos rfl]
      simp only [keysOf, List.map_cons, List.mem_cons]
      tauto
    · rw [if_neg hk]
      simp only [keysOf, List.map_cons, List.mem_cons] at ih ⊢
      rw [ih]
      tauto

theorem nodup_keysOf_dinsert {V : Type} {m : List (List Char × V)}
    {k : List Char} (v : V) (h : (keysOf m).Nodup) :
    (keysOf (dinsert m k v)).Nodup := by
  induction m with
  | nil => simp [dinsert, keysOf]
  | cons p m ih =>
    obtain ⟨k0, v0⟩ := p
    rw [keysOf, List.map_cons, List.nodup_cons] at h
    rw [dinsert]
    by_cases hk : k0 = k
    · subst hk
      rw [if_pos rfl]
      rw [keysOf, List.map_cons, List.nodup_cons]
      exact h
    · rw [if_neg hk]
      rw [keysOf, List.map_cons, List.nodup_cons]
      refine ⟨?_, ih h.2⟩
      intro hmem
      rcases mem_keysOf_dinsert.mp hmem with hmem | hmem
      · exact h.1 hmem
      · exact hk hmem

theorem nodup_keysOf_revStep {rev : List (List Char × List Char)}
    (e : List Char × JVal) (h : (keysOf rev).Nodup) :
    (keysOf (revStep rev e)).Nodup := by
  obtain ⟨pf, info⟩ := e
  cases info <;> simp only [revStep] <;> try exact h
  rename_i fs
  cases hts : alookup "thread_ts".toList fs with
  | none => exact h
  | some ts =>
    cases hch : alookup "channel".toList fs with
    | none => exact h
    | some ch => exact nodup_keysOf_dinsert _ h

theorem nodup_keysOf_foldl_revStep (items : List (List Char × JVal)) :
    ∀ rev, (keysOf rev).Nodup → (keysOf (items.foldl revStep rev)).Nodup := by
  induction items with
  | nil => intro rev h; exact h
  | cons e items ih =>
    intro rev h
    rw [List.foldl_cons]
    exact ih _ (nodup_keysOf_revStep e h)

theorem revStep_invalid (rev : List (List Char × List Char))
    (pf : List Char) (info : JVal)
    (h : ∀ fs, info = JVal.jobj fs →
      alookup "thread_ts".toList fs = none ∨ alookup "channel".toList fs = none) :
    revStep rev (pf, info) = rev := by
  cases info <;> simp only [revStep]
  rename_i fs
  cases hts : alookup "thread_ts".toList fs with
  | none => rfl
  | some ts =>
    cases hch : alookup "channel".toList fs with
    | none => rfl
    | some ch =>
      exfalso
      rcases h fs rfl with h' | h'
      · rw [h'] at hts; exact Option.noConfusion hts
      · rw [h'] at hch; exact Option.noConfusion hch

theorem buildReverseLookup_snoc (items : List (List Char × JVal))
    (e : List Char × JVal) :
    buildReverseLookup (items ++ [e]) = revStep (buildReverseLookup items) e := by
  unfold buildReverseLookup
  rw [List.foldl_append]
  rfl

theorem alookup_foldl_revStep_none (items : List (List Char × JVal))
    (K : List Char) :
    ∀ rev, alookup K rev = none →
    (∀ pf fields ts ch, (pf, JVal.jobj fields) ∈ items →
      alookup "thread_ts".toList fields = some ts →
      alookup "channel".toList fields = some ch →
      pyStr ch ++ ':' :: pyStr ts ≠ K) →
    alookup K (items.foldl revStep rev) = none := by
  induction items with
  | nil => intro rev h _; exact h
  | cons e items ih =>
    intro rev h hall
    rw [List.foldl_cons]
    apply ih
    · obtain ⟨pf, info⟩ := e
      cases info <;> simp only [revStep] <;> try exact h
      rename_i fs
      cases hts : alookup "thread_ts".toList fs with
      | none => exact h
      | some ts =>
        cases hch : alookup "channel".toList fs with
        | none => exact h
        | some ch =>
          show alookup K (dinsert rev (pyStr ch ++ ':' :: pyStr ts) pf) = none
          rw [alookup_dinsert_ne _ _
            (Ne.symm (hall pf fs ts ch (List.mem_cons_self _ _) hts hch))]
          exact h
    · intro pf fields ts ch hmem
      exact hall pf fields ts ch (List.mem_cons_of_mem _ hmem)

/-! ### Lemmas about path manipulation -/

theorem rfindAux_eq_none_iff (c : Char) (s : List Char) (i : Nat) :
    rfindAux c s i = none ↔ c ∉ s := by
  induction s generalizing i with
  | nil => simp [rfindAux]
  | cons d rest ih =>
    rw [rfindAux]
    cases h : rfindAux c rest (i + 1) with
    | some j =>
      have hc : c ∈ rest := by
        by_contra hc
        rw [← ih (i + 1)] at hc
        rw [h] at hc
        exact Option.noConfusion hc
      simp [List.mem_cons, hc]
    | none =>
      have hc : c ∉ rest := (ih (i + 1)).mp h
      by_cases hd : d = c
      · rw [if_pos hd]
        simp [List.mem_cons, hd]
      · rw [if_neg hd]
        simp only [List.mem_cons]
        constructor
        · intro _ hx
          rcases hx with hx | hx
          · exact hd hx.symm
          · exact hc hx
        · intro _
          trivial

theorem rfindAux_append (c : Char) (a b : List Char) (i : Nat) :
    rfindAux c (a ++ b) i =
      match rfindAux c b (i + a.length) with
      | some j => some j
      | none => rfindAux c a i := by
  induction a generalizing i with
  | nil =>
    simp only [List.nil_append, List.length_nil, Nat.add_zero]
    cases rfindAux c b i <;> simp [rfindAux]
  | cons d a ih =>
    rw [List.cons_append, rfindAux, ih (i + 1)]
    have hlen : i + 1 + a.length = i + (d :: a).length := by
      simp
      omega
    rw [hlen]
    cases rfindAux c b (i + (d :: a).length) <;> simp [rfindAux]

theorem rfindAux_decomp {c : Char} {s : List Char} {i j : Nat}
    (h : rfindAux c s i = some j) :
    ∃ x y, s = x ++ c :: y ∧ i + x.length = j ∧ c ∉ y := by
  induction s generalizing i with
  | nil => rw [rfindAux] at h; exact Option.noConfusion h
  | cons d rest ih =>
    cases hr : rfindAux c rest (i + 1) with
    | some j' =>
      simp only [rfindAux, hr, Option.some.injEq] at h
      subst h
      obtain ⟨x, y, hxy, hlen, hy⟩ := ih hr
      refine ⟨d :: x, y, by rw [hxy]; rfl, ?_, hy⟩
      simp only [List.length_cons] at hlen ⊢
      omega
    | none =>
      simp only [rfindAux, hr] at h
      split at h
      · rename_i hd
        simp only [Option.some.injEq] at h
        subst h
        exact ⟨[], rest, by simp [hd], by simp,
          (rfindAux_eq_none_iff c rest (i + 1)).mp hr⟩
      · exact Option.noConfusion h

theorem rfindChar_last_sep {c : Char} {nm : List Char} (dir : List Char)
    (h : c ∉ nm) :
    rfindChar c (dir ++ c :: nm) = some dir.length := by
  unfold rfindChar
  rw [rfindAux_append]
  have h1 : rfindAux c nm (0 + dir.length + 1) = none :=
    (rfindAux_eq_none_iff c nm _).mpr h
  have h2 : rfindAux c (c :: nm) (0 + dir.length) = some dir.length := by
    rw [rfindAux, h1, if_pos rfl, Nat.zero_add]
  rw [h2]

theorem pname_decomp {nm : List Char} (dir : List Char) (h : '/' ∉ nm) :
    pname (dir ++ '/' :: nm) = nm := by
  unfold pname
  rw [rfindChar_last_sep dir h]
  show List.drop (dir.length + 1) (dir ++ '/' :: nm) = nm
  rw [show dir ++ '/' :: nm = (dir ++ ['/']) ++ nm by simp]
  rw [List.drop_left' (by simp)]

theorem pparent_decomp {nm : List Char} (dir : List Char) (h : '/' ∉ nm)
    (hd : dir ≠ []) :
    pparent (dir ++ '/' :: nm) = dir := by
  unfold pparent
  rw [rfindChar_last_sep dir h]
  show (if dir.length = 0 then "/".toList else List.take dir.length (dir ++ '/' :: nm)) = dir
  rw [if_neg (fun hh => hd (List.length_eq_zero.mp hh))]
  exact List.take_left dir ('/' :: nm)

theorem pparent_root {nm : List Char} (h : '/' ∉ nm) :
    pparent ('/' :: nm) = "/".toList := by
  unfold pparent
  have h0 : rfindChar '/' ('/' :: nm) = some 0 := by
    have := rfindChar_last_sep ([] : List Char) h
    rwa [List.nil_append] at this
  rw [h0]
  rfl

theorem rfindAux_feedback_md (k : Nat) :
    rfindAux '.' ".feedback.md".toList k = some (k + 9) := rfl

theorem pstem_append_feedback_ne (nm : List Char) :
    pstem nm ++ ".feedback.md".toList ≠ nm := by
  intro heq
  obtain ⟨A, hA⟩ : ∃ A, pstem nm = A := ⟨_, rfl⟩
  rw [hA] at heq
  have hrf : rfindChar '.' nm = some (A.length + 9) := by
    rw [← heq]
    unfold rfindChar
    rw [rfindAux_append, rfindAux_feedback_md]
    simp
  have hlen : nm.length = A.length + 12 := by
    rw [← heq]
    simp
  have htake : nm.take (A.length + 9) = A ++ ".feedback".toList := by
    rw [← heq]
    rw [List.take_append_eq_append_take,
      List.take_of_length_le (by omega)]
    congr 1
    rw [show A.length + 9 - A.length = 9 by omega]
    rfl
  have hstem : pstem nm = nm.take (A.length + 9) := by
    unfold pstem
    rw [hrf]
    show (if 0 < A.length + 9 ∧ A.length + 9 < nm.length - 1 then
        nm.take (A.length + 9) else nm) = nm.take (A.length + 9)
    rw [if_pos ⟨by omega, by omega⟩]
  have hcontra := congrArg List.length ((hA.symm.trans hstem).trans htake)
  rw [List.length_append] at hcontra
  have h9 : (".feedback".toList : List Char).length = 9 := rfl
  rw [h9] at hcontra
  omega

theorem pstem_head_eq {y : List Char} (h : pstem y ≠ []) :
    (pstem y).head? = y.head? := by
  unfold pstem at h ⊢
  cases hr : rfindChar '.' y with
  | none => rfl
  | some i =>
    have hshow : (match some i with
        | some i => if 0 < i ∧ i < y.length - 1 then List.take i y else y
        | none => y) = if 0 < i ∧ i < y.length - 1 then List.take i y else y := rfl
    rw [hr] at h
    rw [hshow] at h ⊢
    by_cases hcond : 0 < i ∧ i < y.length - 1
    · rw [if_pos hcond] at h ⊢
      cases y with
      | nil => simp at h
      | cons a y' =>
        cases i with
        | zero => exact absurd hcond.1 (by omega)
        | succ i' => rw [List.take_succ_cons]; rfl
    · rw [if_neg hcond]

theorem getLast_feedback_append (x : List Char) :
    (x ++ ".feedback.md".toList).getLast? = some 'd' := by
  rw [List.getLast?_append]
  rfl

theorem getFeedbackFile_getLast (plan : List Char) :
    (getFeedbackFile plan).getLast? = some 'd' := by
  unfold getFeedbackFile joinPath
  split
  · exact getLast_feedback_append _
  · split
    · rw [show ('/' : Char) :: (pstem (pname plan) ++ ".feedback.md".toList)
          = ['/'] ++ (pstem (pname plan) ++ ".feedback.md".toList) from rfl]
      rw [List.getLast?_append, getLast_feedback_append]
      rfl
    · rw [List.getLast?_append]
      have h2 : (('/' : Char) :: (pstem (pname plan) ++ ".feedback.md".toList)).getLast?
          = some 'd' := by
        rw [show ('/' : Char) :: (pstem (pname plan) ++ ".feedback.md".toList)
            = ['/'] ++ (pstem (pname plan) ++ ".feedback.md".toList) from rfl]
        rw [List.getLast?_append, getLast_feedback_append]
        rfl
      rw [h2]
      rfl

theorem getFeedbackFile_ne_self {plan : List Char} (h : plan.head? = some '/') :
    getFeedbackFile plan ≠ plan := by
  have hmem : '/' ∈ plan := by
    cases plan with
    | nil => exact Option.noConfusion h
    | cons c rest =>
      have hc : c = '/' := by simpa using h
      rw [hc]
      exact List.mem_cons_self _ _
  obtain ⟨i, hi⟩ : ∃ i, rfindAux '/' plan 0 = some i := by
    cases hr : rfindAux '/' plan 0 with
    | none => rw [rfindAux_eq_none_iff] at hr; exact absurd hmem hr
    | some j => exact ⟨j, rfl⟩
  obtain ⟨x, y, hxy, hlen, hy⟩ := rfindAux_decomp hi
  cases x with
  | nil =>
    rw [List.nil_append] at hxy
    subst hxy
    unfold getFeedbackFile
    rw [pparent_root hy]
    rw [show pname ('/' :: y) = y from by
      have := pname_decomp ([] : List Char) hy
      rwa [List.nil_append] at this]
    unfold joinPath
    rw [if_neg (by decide), if_pos rfl]
    intro hcontra
    injection hcontra with _ h2
    exact pstem_append_feedback_ne y h2
  | cons d x' =>
    have hd : d = '/' := by
      rw [hxy] at h
      simpa using h
    subst hd
    rw [hxy]
    unfold getFeedbackFile
    rw [pname_decomp _ hy, pparent_decomp _ hy (List.cons_ne_nil _ _)]
    unfold joinPath
    have hdot : (('/' :: x' : List Char) = ".".toList) = False := by
      simp only [eq_iff_iff, iff_false]
      intro hh
      rw [show (".".toList : List Char) = ['.'] from rfl] at hh
      injection hh with h1 _
      exact absurd h1 (by decide)
    rw [if_neg (hdot ▸ not_false)]
    by_cases hroot : ('/' :: x' : List Char) = "/".toList
    · rw [if_pos hroot]
      have hx' : x' = [] := by
        have hroot' : ('/' :: x' : List Char) = ['/'] := hroot
        injection hroot'
      subst hx'
      intro hcontra
      rw [show (['/'] ++ '/' :: y : List Char) = '/' :: '/' :: y from rfl] at hcontra
      injection hcontra with _ h2
      cases hps : pstem y with
      | nil =>
        rw [hps, List.nil_append] at h2
        injection h2 with h1 _
        exact absurd h1 (by decide)
      | cons e z =>
        have hne : pstem y ≠ [] := by rw [hps]; exact List.cons_ne_nil e z
        have hh := pstem_head_eq hne
        rw [hps] at hh h2
        rw [List.cons_append] at h2
        injection h2 with h1 _
        have hhy : y.head? = some '/' := by
          rw [← hh]
          simpa using h1
        have hmem' : '/' ∈ y := by
          cases y with
          | nil => exact Option.noConfusion hhy
          | cons cy ys =>
            have hcy : cy = '/' := by simpa using hhy
            rw [hcy]
            exact List.mem_cons_self _ _
        exact hy hmem'
    · rw [if_neg hroot]
      intro hcontra
      have h2 := List.append_cancel_left hcontra
      injection h2 with _ h3
      exact pstem_append_feedback_ne y h3

theorem getFeedbackFile_decomp {dir nm : List Char} (hnm : '/' ∉ nm)
    (hh : dir.head? = some '/') (hne : dir ≠ ['/']) :
    getFeedbackFile (dir ++ '/' :: nm)
      = dir ++ '/' :: (pstem nm ++ ".feedback.md".toList) := by
  obtain ⟨d, dir', rfl⟩ : ∃ d dir', dir = d :: dir' := by
    cases dir with
    | nil => exact Option.noConfusion hh
    | cons d dir' => exact ⟨d, dir', rfl⟩
  have hd : d = '/' := by simpa using hh
  unfold getFeedbackFile
  rw [pname_decomp _ hnm, pparent_decomp _ hnm (List.cons_ne_nil d dir')]
  unfold joinPath
  have hdot : ((d :: dir' : List Char) = ".".toList) → False := by
    intro hcon
    rw [show (".".toList : List Char) = ['.'] from rfl] at hcon
    injection hcon with h1 _
    rw [hd] at h1
    exact absurd h1 (by decide)
  have hroot : ((d :: dir' : List Char) = "/".toList) → False := fun hcon => hne hcon
  rw [if_neg hdot, if_neg hroot]

/-! ### Lemmas about the feedback merge -/

theorem lstrip_mkBullet_append (ts u m z : List Char) :
    lstrip (mkBullet ts u m ++ z) = mkBullet ts u m ++ z := by
  unfold mkBullet
  rw [show ("- [".toList : List Char) = '-' :: ' ' :: '[' :: [] from rfl]
  simp only [List.cons_append, List.nil_append, List.append_assoc]
  rw [lstrip_cons_of_not_ws (by decide)]

theorem mergeFeedback_with_processed {doc before rest pendBody procAfter : List Char}
    (ts u m : List Char)
    (h1 : splitFirst pendingMarker doc = some (before, rest))
    (h2 : splitFirst processedMarker rest = some (pendBody, procAfter)) :
    mergeFeedback doc ts u m =
      before ++ pendingMarker ++ '\n' :: mkBullet ts u m ++
        '\n' :: (lstrip pendBody ++ (processedMarker ++ procAfter)) := by
  have hsh : (processedMarker ++ procAfter : List Char)
      = '#' :: ("# Processed".toList ++ procAfter) := rfl
  have hrest : rest = pendBody ++ (processedMarker ++ procAfter) := by
    have h := splitFirst_eq_append h2
    rw [h]
    simp [List.append_assoc]
  have hl : lstrip rest = lstrip pendBody ++ (processedMarker ++ procAfter) := by
    rw [hrest, hsh, lstrip_append_hash, ← hsh]
  unfold mergeFeedback
  rw [h1]
  show before ++ pendingMarker ++ '\n' :: mkBullet ts u m ++ '\n' :: lstrip rest = _
  rw [hl]

theorem mergeFeedback_no_pending {content : List Char} (ts u m : List Char)
    (hp : ¬ pendingMarker <:+: content) :
    mergeFeedback content ts u m
      = content ++ '\n' :: (pendingMarker ++ '\n' :: (mkBullet ts u m ++ ['\n'])) := by
  unfold mergeFeedback
  rw [show splitFirst pendingMarker content = none from splitFirst_eq_none_iff.mpr hp]
  show content ++ '\n' :: pendingMarker ++ '\n' :: mkBullet ts u m ++ ['\n'] = _
  simp only [List.append_assoc, List.cons_append]

theorem lstrip_split_processed {rest pendBody procAfter : List Char}
    (h2 : splitFirst processedMarker rest = some (pendBody, procAfter)) :
    lstrip rest = lstrip pendBody ++ (processedMarker ++ procAfter) := by
  have hsh : (processedMarker ++ procAfter : List Char)
      = '#' :: ("# Processed".toList ++ procAfter) := rfl
  have hrest : rest = pendBody ++ (processedMarker ++ procAfter) := by
    have h := splitFirst_eq_append h2
    rw [h]
    simp [List.append_assoc]
  rw [hrest, hsh, lstrip_append_hash, ← hsh]

theorem splitFirst_mergeFeedback {doc before rest : List Char} (ts u m : List Char)
    (h1 : splitFirst pendingMarker doc = some (before, rest)) :
    splitFirst pendingMarker (mergeFeedback doc ts u m)
      = some (before, '\n' :: (mkBullet ts u m ++ ('\n' :: lstrip rest))) := by
  have hdoc := splitFirst_eq_append h1
  have h1' : splitFirst pendingMarker (before ++ pendingMarker ++ rest)
      = some (before, rest) := by
    rw [← hdoc]
    exact h1
  have hst := splitFirst_stable h1' ('\n' :: (mkBullet ts u m ++ ('\n' :: lstrip rest)))
  unfold mergeFeedback
  rw [h1]
  show splitFirst pendingMarker
      (before ++ pendingMarker ++ '\n' :: mkBullet ts u m ++ '\n' :: lstrip rest) = _
  have hsh : before ++ pendingMarker ++ '\n' :: mkBullet ts u m ++ '\n' :: lstrip rest
      = before ++ pendingMarker ++ ('\n' :: (mkBullet ts u m ++ ('\n' :: lstrip rest))) := by
    simp only [List.append_assoc, List.cons_append]
  rw [hsh]
  exact hst

theorem mergeFeedback_skeleton (stem ts u m : List Char)
    (hp : ¬ pendingMarker <:+: ("# Feedback: ".toList ++ stem)) :
    mergeFeedback (skeleton stem) ts u m
      = "# Feedback: ".toList ++ (stem ++ ('\n' :: '\n' :: (pendingMarker ++
          '\n' :: (mkBullet ts u m ++ ('\n' :: (processedMarker ++ ['\n'])))))) := by
  have hn : ('\n' : Char) ∉ pendingMarker := by decide
  have hskel : skeleton stem
      = (("# Feedback: ".toList ++ stem) ++ ['\n']) ++
        '\n' :: (pendingMarker ++ ('\n' :: '\n' :: (processedMarker ++ ['\n']))) := by
    unfold skeleton
    rw [show ("\n\n## Pending\n\n## Processed\n".toList : List Char)
        = '\n' :: '\n' :: (pendingMarker ++ ('\n' :: '\n' :: (processedMarker ++ ['\n'])))
        from rfl]
    simp only [List.append_assoc, List.cons_append, List.nil_append]
  have ha : ¬ pendingMarker <:+: (("# Feedback: ".toList ++ stem) ++ ['\n']) := by
    intro hcon
    rcases (infix_append_sep_iff hn).mp hcon with h' | h'
    · exact hp h'
    · rw [List.infix_nil] at h'
      exact hp (h' ▸ List.nil_infix)
  have hsplit : splitFirst pendingMarker (skeleton stem)
      = some ((("# Feedback: ".toList ++ stem) ++ ['\n']) ++ ['\n'],
          '\n' :: '\n' :: (processedMarker ++ ['\n'])) := by
    rw [hskel]
    exact splitFirst_after_sep hn ha
  unfold mergeFeedback
  rw [hsplit]
  show ((("# Feedback: ".toList ++ stem) ++ ['\n']) ++ ['\n']) ++ pendingMarker ++
      '\n' :: mkBullet ts u m ++
      '\n' :: lstrip ('\n' :: '\n' :: (processedMarker ++ ['\n'])) = _
  rw [show lstrip ('\n' :: '\n' :: (processedMarker ++ ['\n']))
      = processedMarker ++ ['\n'] from rfl]
  simp only [List.append_assoc, List.cons_append, List.nil_append]

/-- C1 (amended): when the document contains a `## Pending` marker whose
remainder contains a `## Processed` marker, `_write_feedback` inserts the
new bullet at the *beginning* of the pending body, on the line right after
the `## Pending` marker (not at its end as the original claim states);
every prior Pending bullet is preserved, in order, after the new bullet
(only leading whitespace of the pending body is trimmed by `lstrip`);
appending twice therefore stacks the two new bullets in *reverse* call
order (the second call's bullet first); the `## Processed` marker and
everything after it are byte-identical before and after. -/
theorem C1_pending_bullet_inserted_at_top
    (doc before rest pendBody procAfter ts1 u1 m1 ts2 u2 m2 : List Char)
    (h1 : splitFirst pendingMarker doc = some (before, rest))
    (h2 : splitFirst processedMarker rest = some (pendBody, procAfter)) :
    mergeFeedback doc ts1 u1 m1
      = before ++ pendingMarker ++ '\n' :: mkBullet ts1 u1 m1 ++
          '\n' :: (lstrip pendBody ++ (processedMarker ++ procAfter))
    ∧ mergeFeedback (mergeFeedback doc ts1 u1 m1) ts2 u2 m2
      = before ++ pendingMarker ++ '\n' :: mkBullet ts2 u2 m2 ++
          '\n' :: (mkBullet ts1 u1 m1 ++
            '\n' :: (lstrip pendBody ++ (processedMarker ++ procAfter))) := by
  constructor
  · exact mergeFeedback_with_processed ts1 u1 m1 h1 h2
  · have hs := splitFirst_mergeFeedback ts1 u1 m1 h1
    have h2' := lstrip_split_processed h2
    obtain ⟨r1, hr1⟩ : ∃ r1, mergeFeedback doc ts1 u1 m1 = r1 := ⟨_, rfl⟩
    rw [hr1] at hs ⊢
    unfold mergeFeedback
    rw [hs]
    show before ++ pendingMarker ++ '\n' :: mkBullet ts2 u2 m2 ++
        '\n' :: lstrip ('\n' :: (mkBullet ts1 u1 m1 ++ ('\n' :: lstrip rest))) = _
    rw [lstrip_cons_of_ws (show pyWs '\n' = true from by decide),
      lstrip_mkBullet_append, h2']

/-- C1 counterexample: on a document with one prior Pending bullet and a
Processed section, the code puts the new bullet directly under the
`## Pending` marker, above the old bullet; the new bullet is nowhere
immediately before the `## Processed` marker (with or without an
intervening newline), falsifying the claimed insertion at the end of the
pending body. -/
theorem C1_counterexample :
    mergeFeedback "# F\n\n## Pending\n- [a] @x: old\n\n## Processed\n- done\n".toList
        "2025-01-01 12:00".toList "u".toList "new".toList
      = ("# F\n\n## Pending\n- [2025-01-01 12:00] @u: new\n" ++
          "- [a] @x: old\n\n## Processed\n- done\n").toList
    ∧ ¬ ((mkBullet "2025-01-01 12:00".toList "u".toList "new".toList ++ processedMarker)
        <:+: mergeFeedback "# F\n\n## Pending\n- [a] @x: old\n\n## Processed\n- done\n".toList
          "2025-01-01 12:00".toList "u".toList "new".toList)
    ∧ ¬ ((mkBullet "2025-01-01 12:00".toList "u".toList "new".toList ++
          '\n' :: processedMarker)
        <:+: mergeFeedback "# F\n\n## Pending\n- [a] @x: old\n\n## Processed\n- done\n".toList
          "2025-01-01 12:00".toList "u".toList "new".toList) :=
  ⟨rfl, splitFirst_eq_none_iff.mp rfl, splitFirst_eq_none_iff.mp rfl⟩

/-- C1 witness: the amended theorem applied to a concrete document with one
prior Pending bullet and a Processed section, appended to twice. -/
theorem C1_witness :
    mergeFeedback "# F\n\n## Pending\n- [a] @x: old\n\n## Processed\nP\n".toList
        "T1".toList "u1".toList "m1".toList
      = "# F\n\n## Pending\n- [T1] @u1: m1\n- [a] @x: old\n\n## Processed\nP\n".toList
    ∧ mergeFeedback
        (mergeFeedback "# F\n\n## Pending\n- [a] @x: old\n\n## Processed\nP\n".toList
          "T1".toList "u1".toList "m1".toList)
        "T2".toList "u2".toList "m2".toList
      = ("# F\n\n## Pending\n- [T2] @u2: m2\n- [T1] @u1: m1\n" ++
          "- [a] @x: old\n\n## Processed\nP\n").toList := by
  have h := C1_pending_bullet_inserted_at_top
    "# F\n\n## Pending\n- [a] @x: old\n\n## Processed\nP\n".toList
    "# F\n\n".toList "\n- [a] @x: old\n\n## Processed\nP\n".toList
    "\n- [a] @x: old\n\n".toList "\nP\n".toList
    "T1".toList "u1".toList "m1".toList "T2".toList "u2".toList "m2".toList
    rfl rfl
  exact ⟨h.1.trans (by rfl), h.2.trans (by rfl)⟩

/-- C7: on an existing document with no `## Pending` marker,
`_write_feedback` appends a new Pending section holding the single new
bullet at the end of the document, leaving all prior content unchanged as
a prefix and fabricating no `## Processed` section.  Conjunct 2 exhibits
the appended section as the first (and, with conjunct 3, only) occurrence
of the Pending marker; conjunct 4 shows the result contains no Processed
marker when neither the document nor the bullet contained one, so a
document lacking both sections ends up with exactly one Pending section
holding exactly one bullet and no Processed section. -/
theorem C7_missing_pending_appends_new_section
    (content ts u m : List Char)
    (hp : ¬ pendingMarker <:+: content) :
    mergeFeedback content ts u m
      = content ++ '\n' :: (pendingMarker ++ '\n' :: (mkBullet ts u m ++ ['\n']))
    ∧ splitFirst pendingMarker (mergeFeedback content ts u m)
      = some (content ++ ['\n'], '\n' :: (mkBullet ts u m ++ ['\n']))
    ∧ (¬ pendingMarker <:+: mkBullet ts u m
        → ¬ pendingMarker <:+: ('\n' :: (mkBullet ts u m ++ ['\n'])))
    ∧ (¬ processedMarker <:+: content → ¬ processedMarker <:+: mkBullet ts u m
        → ¬ processedMarker <:+: mergeFeedback content ts u m) := by
  have hn : ('\n' : Char) ∉ pendingMarker := by decide
  have hn' : ('\n' : Char) ∉ processedMarker := by decide
  have h1 := mergeFeedback_no_pending ts u m hp
  refine ⟨h1, ?_, ?_, ?_⟩
  · rw [h1]
    exact splitFirst_after_sep hn hp
  · intro hb1 hin
    have hin' : pendingMarker <:+:
        ([] : List Char) ++ '\n' :: (mkBullet ts u m ++ ['\n']) := by
      simpa using hin
    rcases (infix_append_sep_iff hn).mp hin' with h' | h'
    · rw [List.infix_nil] at h'
      exact hp (h' ▸ List.nil_infix)
    · rcases (infix_append_sep_iff hn).mp h' with h'' | h''
      · exact hb1 h''
      · rw [List.infix_nil] at h''
        exact hp (h'' ▸ List.nil_infix)
  · intro hq hb2 hin
    rw [h1] at hin
    rcases (infix_append_sep_iff hn').mp hin with h' | h'
    · exact hq h'
    · rcases (infix_append_sep_iff hn').mp h' with h'' | h''
      · have hle := h''.length_le
        have e1 : processedMarker.length = 12 := rfl
        have e2 : pendingMarker.length = 10 := rfl
        rw [e1, e2] at hle
        omega
      · rcases (infix_append_sep_iff hn').mp h'' with h3 | h3
        · exact hb2 h3
        · exact absurd h3 (by intro hc; rw [List.infix_nil] at hc; exact absurd hc (by decide))

/-- C7 witness: appending to a concrete document that lacks both section
markers yields the document followed by one new Pending section with the
single bullet, and no Processed marker anywhere. -/
theorem C7_witness :
    mergeFeedback "Some notes.\n".toList "T".toList "u".toList "hi".toList
      = "Some notes.\n\n## Pending\n- [T] @u: hi\n".toList
    ∧ splitFirst pendingMarker
        (mergeFeedback "Some notes.\n".toList "T".toList "u".toList "hi".toList)
      = some ("Some notes.\n\n".toList, "\n- [T] @u: hi\n".toList)
    ∧ ¬ pendingMarker <:+: ("\n- [T] @u: hi\n".toList : List Char)
    ∧ ¬ processedMarker <:+:
        mergeFeedback "Some notes.\n".toList "T".toList "u".toList "hi".toList := by
  have h := C7_missing_pending_appends_new_section
    "Some notes.\n".toList "T".toList "u".toList "hi".toList (by decide)
  refine ⟨h.1.trans (by rfl), h.2.1.trans (by rfl), ?_, h.2.2.2 (by decide) (by decide)⟩
  have h3 := h.2.2.1 (by decide)
  intro hin
  exact h3 (by exact hin)

/-- C6: `_get_feedback_file` resolves the feedback path as the task's
directory plus the task's base name without its last extension plus the
fixed `".feedback.md"` suffix (conjunct 1 is the claim's example
`/t/plan.md ↦ /t/plan.feedback.md`; conjunct 2 the general law for
absolute task paths); and when the feedback document does not exist,
`_write_feedback` creates it from the minimal skeleton — title line from
the base name, a `## Pending` section and a `## Processed` section — so
that the written document is exactly the skeleton with one new bullet,
located inside the Pending section (conjunct 3 displays the full written
document, with the single bullet between the two markers). -/
theorem C6_feedback_path_and_skeleton
    (fs : FS) (dir nm plan ts u m : List Char) :
    getFeedbackFile "/t/plan.md".toList = "/t/plan.feedback.md".toList
    ∧ ('/' ∉ nm → dir.head? = some '/' → dir ≠ ['/'] →
        getFeedbackFile (dir ++ '/' :: nm)
          = dir ++ '/' :: (pstem nm ++ ".feedback.md".toList))
    ∧ (fs (getFeedbackFile plan) = none →
        ¬ pendingMarker <:+: ("# Feedback: ".toList ++ pstem (pname plan)) →
        (writeFeedback fs plan ts u m).1 (getFeedbackFile plan)
          = some ("# Feedback: ".toList ++ (pstem (pname plan) ++
              ('\n' :: '\n' :: (pendingMarker ++ '\n' :: (mkBullet ts u m ++
                ('\n' :: (processedMarker ++ ['\n'])))))))) := by
  refine ⟨rfl, ?_, ?_⟩
  · intro hnm hh hne
    exact getFeedbackFile_decomp hnm hh hne
  · intro hmiss hp
    have hupd : (writeFeedback fs plan ts u m).1 (getFeedbackFile plan)
        = some (mergeFeedback (skeleton (pstem (pname plan))) ts u m) := by
      simp only [writeFeedback]
      rw [hmiss]
      simp
    rw [hupd, mergeFeedback_skeleton (pstem (pname plan)) ts u m hp]

/-- C6 witness: the theorem applied to the task `/t/plan.md` on a file
system where the feedback document is absent. -/
theorem C6_witness :
    getFeedbackFile "/t/plan.md".toList = "/t/plan.feedback.md".toList
    ∧ getFeedbackFile ("/t".toList ++ '/' :: "plan.md".toList)
      = "/t".toList ++ '/' :: (pstem "plan.md".toList ++ ".feedback.md".toList)
    ∧ (writeFeedback (fun _ => none) "/t/plan.md".toList
        "T".toList "u".toList "hi".toList).1 (getFeedbackFile "/t/plan.md".toList)
      = some "# Feedback: plan\n\n## Pending\n- [T] @u: hi\n## Processed\n".toList := by
  have h := C6_feedback_path_and_skeleton (fun _ => none)
    "/t".toList "plan.md".toList "/t/plan.md".toList "T".toList "u".toList "hi".toList
  exact ⟨h.1, h.2.1 (by decide) rfl (by decide), (h.2.2 rfl (by decide)).trans (by rfl)⟩

/-- C3: the reverse index built by `_build_reverse_lookup` maps each
composite key `channel + ":" + thread_ts` to exactly one taskId (its key
list has no duplicates); a stored value that is not a dict, or lacks the
`thread_ts` or `channel` field, is skipped and contributes nothing; when a
record with the same composite key is inserted later, the later record's
taskId wins; and a key matched by no well-formed record yields no match. -/
theorem C3_reverse_lookup_invariants
    (items : List (List Char × JVal)) (K : List Char) :
    (keysOf (buildReverseLookup items)).Nodup
    ∧ (∀ pf info, (∀ fs, info = JVal.jobj fs →
          alookup "thread_ts".toList fs = none ∨ alookup "channel".toList fs = none) →
        buildReverseLookup (items ++ [(pf, info)]) = buildReverseLookup items)
    ∧ (∀ pf fields ts ch,
        alookup "thread_ts".toList fields = some ts →
        alookup "channel".toList fields = some ch →
        alookup (pyStr ch ++ ':' :: pyStr ts)
          (buildReverseLookup (items ++ [(pf, JVal.jobj fields)])) = some pf)
    ∧ ((∀ pf fields ts ch, (pf, JVal.jobj fields) ∈ items →
          alookup "thread_ts".toList fields = some ts →
          alookup "channel".toList fields = some ch →
          pyStr ch ++ ':' :: pyStr ts ≠ K) →
        alookup K (buildReverseLookup items) = none) := by
  refine ⟨?_, ?_, ?_, ?_⟩
  · exact nodup_keysOf_foldl_revStep items [] (by simp [keysOf])
  · intro pf info h
    rw [buildReverseLookup_snoc, revStep_invalid _ pf info h]
  · intro pf fields ts ch hts hch
    rw [buildReverseLookup_snoc]
    simp only [revStep, hts, hch]
    exact alookup_dinsert_self _ _ _
  · intro hall
    exact alookup_foldl_revStep_none items K [] rfl hall

/-- C3 witness: the theorem applied to a one-entry tracker whose value is
not a dict, with a skipped malformed append, a well-formed append whose
key then resolves to the new taskId, and a key with no matching record. -/
theorem C3_witness :
    (keysOf (buildReverseLookup [("/a".toList, JVal.jnull)])).Nodup
    ∧ buildReverseLookup ([("/a".toList, JVal.jnull)] ++ [("/b".toList, JVal.jstr "x".toList)])
      = buildReverseLookup [("/a".toList, JVal.jnull)]
    ∧ alookup (pyStr (JVal.jstr "C".toList) ++ ':' :: pyStr (JVal.jstr "2".toList))
        (buildReverseLookup ([("/a".toList, JVal.jnull)] ++
          [("/c".toList, JVal.jobj [("thread_ts".toList, JVal.jstr "2".toList),
            ("channel".toList, JVal.jstr "C".toList)])]))
      = some "/c".toList
    ∧ alookup "C:9".toList (buildReverseLookup [("/a".toList, JVal.jnull)]) = none := by
  have h := C3_reverse_lookup_invariants [("/a".toList, JVal.jnull)] "C:9".toList
  refine ⟨h.1, h.2.1 "/b".toList (JVal.jstr "x".toList) ?_,
    h.2.2.1 "/c".toList _ (JVal.jstr "2".toList) (JVal.jstr "C".toList) rfl rfl,
    h.2.2.2 ?_⟩
  · intro fs hfs
    cases hfs
  · intro pf fields ts ch hmem hts hch
    simp only [List.mem_singleton, Prod.mk.injEq] at hmem
    exact absurd hmem.2 (by intro hh; cases hh)

/-- C4: `_load_threads` returns the parsed JSON value when the tracker
file exists and its content parses, and returns the empty mapping — never
failing — when the file is missing or the content is malformed (the
`json.JSONDecodeError` branch logs a warning and falls through to `{}`). -/
theorem C4_load_never_fatal (c : List Char) (v : JVal) :
    (parseJson c = some v → loadThreads (some c) = v)
    ∧ (parseJson c = none → loadThreads (some c) = JVal.jobj [])
    ∧ loadThreads none = JVal.jobj [] := by
  refine ⟨?_, ?_, rfl⟩
  · intro h
    show (match parseJson c with | some w => w | none => JVal.jobj []) = v
    rw [h]
  · intro h
    show (match parseJson c with | some w => w | none => JVal.jobj []) = JVal.jobj []
    rw [h]

/-- C4 witness: the theorem applied to malformed content, to a well-formed
document, and to the missing file. -/
theorem C4_witness :
    loadThreads (some "this is not json".toList) = JVal.jobj []
    ∧ loadThreads (some "\x7b\"a\": \"b\"\x7d".toList)
      = JVal.jobj [("a".toList, JVal.jstr "b".toList)]
    ∧ loadThreads none = JVal.jobj [] := by
  have h1 := C4_load_never_fatal "this is not json".toList (JVal.jobj [])
  have h2 := C4_load_never_fatal "\x7b\"a\": \"b\"\x7d".toList
    (JVal.jobj [("a".toList, JVal.jstr "b".toList)])
  exact ⟨h1.2.1 rfl, h2.1 rfl, h1.2.2⟩

/-- C5: an inbound event with no thread-parent identifier, or whose
`channel:thread_ts` key has no match in the freshly reloaded registry, or
that is attributed to an automated sender (`bot_id` truthy or subtype
`bot_message`), or whose text is empty or whitespace-only, produces no
feedback-document mutation (the file system is returned unchanged) and no
acknowledgment; the only registry effect is (at most) the reload itself. -/
theorem C5_discarded_events_no_effects
    (fs : FS) (trackerPath now : List Char)
    (resolve : List Char → Option (List Char)) (ev : SlackEvent)
    (h : optTruthy ev.thread_ts = false
       ∨ (∀ ts, ev.thread_ts = some ts →
            alookup (optFmt ev.channel ++ ':' :: ts)
              (buildReverseLookup (jitems (loadThreads (fs trackerPath)))) = none)
       ∨ optTruthy ev.bot_id = true ∨ ev.subtype = some "bot_message".toList
       ∨ pyStrip (ev.text.getD []) = []) :
    (handleMessage fs trackerPath resolve now ev).1 = fs
    ∧ (handleMessage fs trackerPath resolve now ev).2.writtenPath = none
    ∧ (handleMessage fs trackerPath resolve now ev).2.ack = none := by
  obtain ⟨tts, ch, bid, sub, usr, txt⟩ := ev
  cases tts with
  | none => exact ⟨rfl, rfl, rfl⟩
  | some ts =>
    by_cases hempty : ts = []
    · subst hempty
      exact ⟨rfl, rfl, rfl⟩
    · simp only [handleMessage]
      rw [if_neg hempty]
      split
      · exact ⟨rfl, rfl, rfl⟩
      · rename_i plan hlook
        split
        · exact ⟨rfl, rfl, rfl⟩
        · rename_i hbot
          split
          · exact ⟨rfl, rfl, rfl⟩
          · rename_i htext
            exfalso
            rcases h with h | h | h | h | h
            · rcases ts with _ | ⟨a, l⟩
              · exact hempty rfl
              · exact absurd h (by simp [optTruthy])
            · rw [h ts rfl] at hlook
              exact Option.noConfusion hlook
            · exact hbot (Or.inl h)
            · exact hbot (Or.inr h)
            · exact htext h

/-- C5 witness: the theorem applied to four concrete discarded events — no
thread parent, an untracked thread, a bot-attributed reply, and a
whitespace-only reply — on a file system with no tracker file. -/
theorem C5_witness :
    (handleMessage (fun _ => none) "/r/t.json".toList (fun _ => none) "T".toList
        ⟨none, some "C1".toList, none, none, some "U1".toList, some "hi".toList⟩).2.writtenPath
      = none
    ∧ (handleMessage (fun _ => none) "/r/t.json".toList (fun _ => none) "T".toList
        ⟨some "9.9".toList, some "C1".toList, none, none, some "U1".toList,
          some "hi".toList⟩).2.writtenPath = none
    ∧ (handleMessage (fun _ => none) "/r/t.json".toList (fun _ => none) "T".toList
        ⟨some "9.9".toList, some "C1".toList, some "B07".toList, none, some "U1".toList,
          some "hi".toList⟩).2.ack = none
    ∧ (handleMessage (fun _ => none) "/r/t.json".toList (fun _ => none) "T".toList
        ⟨some "9.9".toList, some "C1".toList, none, none, some "U1".toList,
          some "  \n ".toList⟩).2.writtenPath = none := by
  refine ⟨?_, ?_, ?_, ?_⟩
  · exact (C5_discarded_events_no_effects (fun _ => none) "/r/t.json".toList "T".toList
      (fun _ => none) ⟨none, some "C1".toList, none, none, some "U1".toList,
        some "hi".toList⟩ (Or.inl rfl)).2.1
  · exact (C5_discarded_events_no_effects (fun _ => none) "/r/t.json".toList "T".toList
      (fun _ => none) ⟨some "9.9".toList, some "C1".toList, none, none, some "U1".toList,
        some "hi".toList⟩ (Or.inr (Or.inl (by intro ts hts; cases hts; rfl)))).2.1
  · exact (C5_discarded_events_no_effects (fun _ => none) "/r/t.json".toList "T".toList
      (fun _ => none) ⟨some "9.9".toList, some "C1".toList, some "B07".toList, none,
        some "U1".toList, some "hi".toList⟩ (Or.inr (Or.inr (Or.inl rfl)))).2.2
  · exact (C5_discarded_events_no_effects (fun _ => none) "/r/t.json".toList "T".toList
      (fun _ => none) ⟨some "9.9".toList, some "C1".toList, none, none, some "U1".toList,
        some "  \n ".toList⟩ (Or.inr (Or.inr (Or.inr (Or.inr rfl))))).2.1

/-- C8: for a tracked thread reply (key matched, not automated, non-blank
text) whose directory lookup of the sender's display name fails
(`client.users_info` raises, modelled by `resolve` returning `none`),
`handle_message` falls back to the raw user identifier as the author name
and still completes the feedback write and the acknowledgment: the
feedback path and the raw author are recorded, an acknowledgment is
produced, and the file system is exactly the one produced by
`_write_feedback` with the raw identifier as author. -/
theorem C8_resolve_failure_falls_back
    (fs : FS) (trackerPath now ts plan : List Char)
    (resolve : List Char → Option (List Char)) (ev : SlackEvent)
    (hts : ev.thread_ts = some ts) (hne : ts ≠ [])
    (hlook : alookup (optFmt ev.channel ++ ':' :: ts)
        (buildReverseLookup (jitems (loadThreads (fs trackerPath)))) = some plan)
    (hbot : ¬ (optTruthy ev.bot_id = true ∨ ev.subtype = some "bot_message".toList))
    (htext : ¬ (pyStrip (ev.text.getD []) = []))
    (hres : resolve (ev.user.getD "unknown".toList) = none) :
    (handleMessage fs trackerPath resolve now ev).2.writtenPath
      = some (getFeedbackFile plan)
    ∧ (handleMessage fs trackerPath resolve now ev).2.author
      = some (ev.user.getD "unknown".toList)
    ∧ (handleMessage fs trackerPath resolve now ev).2.ack.isSome = true
    ∧ (handleMessage fs trackerPath resolve now ev).1
      = (writeFeedback fs plan now (ev.user.getD "unknown".toList)
          (ev.text.getD [])).1 := by
  obtain ⟨tts, ch, bid, sub, usr, txt⟩ := ev
  have hts' : tts = some ts := hts
  subst hts'
  simp only [handleMessage]
  rw [if_neg hne]
  split
  · rename_i hl
    rw [hl] at hlook
    exact Option.noConfusion hlook
  · rename_i plan' hl
    rw [hl] at hlook
    have hplan : plan' = plan := Option.some.inj hlook
    subst hplan
    have hbot' : ¬ (optTruthy bid = true ∨ sub = some "bot_message".toList) := hbot
    rw [if_neg hbot']
    have htext' : ¬ (pyStrip (txt.getD []) = []) := htext
    rw [if_neg htext']
    have hres' : resolve (usr.getD "unknown".toList) = none := hres
    rw [hres']
    exact ⟨rfl, rfl, rfl, rfl⟩

/-- C8 witness: the theorem applied to a concrete tracked reply — the
tracker file holds real JSON mapping `/t/plan.md` to thread `100.1` in
channel `C1` — with a directory lookup that always fails: the write still
happens, attributed to the raw identifier `U1`. -/
theorem C8_witness :
    (handleMessage
        (fun p => if p = "/r/.ralph/slack_threads.json".toList then
          some "\x7b\"/t/plan.md\": \x7b\"thread_ts\": \"100.1\", \"channel\": \"C1\"\x7d\x7d".toList
          else none)
        "/r/.ralph/slack_threads.json".toList (fun _ => none) "T".toList
        ⟨some "100.1".toList, some "C1".toList, none, none, some "U1".toList,
          some "looks good".toList⟩).2.writtenPath
      = some "/t/plan.feedback.md".toList
    ∧ (handleMessage
        (fun p => if p = "/r/.ralph/slack_threads.json".toList then
          some "\x7b\"/t/plan.md\": \x7b\"thread_ts\": \"100.1\", \"channel\": \"C1\"\x7d\x7d".toList
          else none)
        "/r/.ralph/slack_threads.json".toList (fun _ => none) "T".toList
        ⟨some "100.1".toList, some "C1".toList, none, none, some "U1".toList,
          some "looks good".toList⟩).2.author = some "U1".toList
    ∧ (handleMessage
        (fun p => if p = "/r/.ralph/slack_threads.json".toList then
          some "\x7b\"/t/plan.md\": \x7b\"thread_ts\": \"100.1\", \"channel\": \"C1\"\x7d\x7d".toList
          else none)
        "/r/.ralph/slack_threads.json".toList (fun _ => none) "T".toList
        ⟨some "100.1".toList, some "C1".toList, none, none, some "U1".toList,
          some "looks good".toList⟩).2.ack.isSome = true := by
  have h := C8_resolve_failure_falls_back
    (fun p => if p = "/r/.ralph/slack_threads.json".toList then
      some "\x7b\"/t/plan.md\": \x7b\"thread_ts\": \"100.1\", \"channel\": \"C1\"\x7d\x7d".toList
      else none)
    "/r/.ralph/slack_threads.json".toList "T".toList "100.1".toList "/t/plan.md".toList
    (fun _ => none)
    ⟨some "100.1".toList, some "C1".toList, none, none, some "U1".toList,
      some "looks good".toList⟩
    rfl (by decide) rfl (by decide) (by decide) rfl
  exact ⟨h.1.trans (by rfl), h.2.1, h.2.2.1⟩

/-- C2 (code bug): `_acquire_pid_lock` opens the PID file with mode `"w"`,
which truncates it *before* the non-blocking `flock` is attempted.  When
the advisory lock is already held by another instance the call does
return `false`, but the holder's recorded PID has already been erased:
the PID file is left empty, not unchanged — which also breaks the
`--status` path that parses this file.  Evaluated at the failing input
(file containing `"1234"`, lock held by another holder). -/
theorem C2_acquire_truncates_on_contention :
    (acquirePidLock ⟨some "1234".toList, true⟩ 4321).1 = false
    ∧ (acquirePidLock ⟨some "1234".toList, true⟩ 4321).2.content = some []
    ∧ (acquirePidLock ⟨some "1234".toList, true⟩ 4321).2.content
      ≠ some "1234".toList := by
  decide

/-- C9 counterexample: with the PID file holding `4242` and `os.kill(4242, 0)`
raising `PermissionError` — i.e. the recorded process exists and is alive,
merely owned by another user — `is_bot_running` deletes the PID file and
reports not-running, while the claim's "otherwise it reports running"
requires `true`. -/
theorem C9_counterexample :
    isBotRunning (some "4242".toList) (fun _ => KillResult.permissionDenied)
      = (false, none)
    ∧ (isBotRunning (some "4242".toList) (fun _ => KillResult.permissionDenied)).1
      ≠ true := by
  decide

/-- C9 (amended): `is_bot_running` reports not-running when the PID file is
absent (touching nothing); when the file exists it reports running — with
the file kept — exactly when the content parses as an integer and signal 0
succeeds on that pid; in every other case (content that is not a valid
integer, no such process, or permission denied — even though in the
permission case the process is alive) it deletes the PID file and reports
not-running. -/
theorem C9_is_running_characterization
    (content : List Char) (kill0 : Int → KillResult) :
    isBotRunning none kill0 = (false, none)
    ∧ (parsePyInt (pyStrip content) = none →
        isBotRunning (some content) kill0 = (false, none))
    ∧ (∀ pid, parsePyInt (pyStrip content) = some pid → kill0 pid = KillResult.ok →
        isBotRunning (some content) kill0 = (true, some content))
    ∧ (∀ pid, parsePyInt (pyStrip content) = some pid → kill0 pid ≠ KillResult.ok →
        isBotRunning (some content) kill0 = (false, none)) := by
  have hsome : isBotRunning (some content) kill0 =
      match parsePyInt (pyStrip content) with
      | none => (false, none)
      | some pid =>
        match kill0 pid with
        | KillResult.ok => (true, some content)
        | KillResult.noSuchProcess => (false, none)
        | KillResult.permissionDenied => (false, none) := rfl
  refine ⟨rfl, ?_, ?_, ?_⟩
  · intro h
    rw [hsome, h]
  · intro pid hp hk
    rw [hsome, hp]
    show (match kill0 pid with
      | KillResult.ok => (true, some content)
      | KillResult.noSuchProcess => ((false : Bool), (none : Option (List Char)))
      | KillResult.permissionDenied => (false, none)) = (true, some content)
    rw [hk]
  · intro pid hp hk
    rw [hsome, hp]
    show (match kill0 pid with
      | KillResult.ok => (true, some content)
      | KillResult.noSuchProcess => ((false : Bool), (none : Option (List Char)))
      | KillResult.permissionDenied => (false, none)) = (false, none)
    cases hk0 : kill0 pid with
    | ok => exact absurd hk0 hk
    | noSuchProcess => rfl
    | permissionDenied => rfl

/-- C9 witness: the amended theorem applied to the missing file, to
unparseable content, to a live and signallable pid, and to a stale pid. -/
theorem C9_witness :
    isBotRunning none (fun _ => KillResult.ok) = (false, none)
    ∧ isBotRunning (some "12x".toList) (fun _ => KillResult.ok) = (false, none)
    ∧ isBotRunning (some " 4242 ".toList)
        (fun p => if p = 4242 then KillResult.ok else KillResult.noSuchProcess)
      = (true, some " 4242 ".toList)
    ∧ isBotRunning (some "4242".toList) (fun _ => KillResult.noSuchProcess)
      = (false, none) := by
  have h1 := C9_is_running_characterization "12x".toList (fun _ => KillResult.ok)
  have h2 := C9_is_running_characterization " 4242 ".toList
    (fun p => if p = 4242 then KillResult.ok else KillResult.noSuchProcess)
  have h3 := C9_is_running_characterization "4242".toList
    (fun _ => KillResult.noSuchProcess)
  exact ⟨h1.1, h1.2.1 (by decide), h2.2.2.1 4242 (by decide) (by decide),
    h3.2.2.2 4242 (by decide) (by decide)⟩

/-- C10: the only file `_write_feedback` creates or writes is the derived
feedback document: every other path is returned unchanged; in particular
the task (plan) file itself — for any absolute task path, since the
feedback path always differs from the plan path — and the thread-tracker
file are byte-identical before and after the call (the tracker file name
`slack_threads.json` ends in `'n'`, while every feedback path ends in
`'d'`). -/
theorem C10_write_feedback_frame
    (fs : FS) (plan ts u m p tracker : List Char)
    (hplan : plan.head? = some '/') :
    (p ≠ getFeedbackFile plan → (writeFeedback fs plan ts u m).1 p = fs p)
    ∧ (writeFeedback fs plan ts u m).1 plan = fs plan
    ∧ (tracker.getLast? = some 'n' →
        (writeFeedback fs plan ts u m).1 tracker = fs tracker) := by
  have hframe : ∀ q, q ≠ getFeedbackFile plan →
      (writeFeedback fs plan ts u m).1 q = fs q := by
    intro q hq
    simp only [writeFeedback]
    rw [if_neg hq]
  refine ⟨hframe p, ?_, ?_⟩
  · exact hframe plan (Ne.symm (getFeedbackFile_ne_self hplan))
  · intro htr
    apply hframe
    intro hq
    rw [hq, getFeedbackFile_getLast plan] at htr
    exact absurd (Option.some.inj htr) (by decide)

/-- C10 witness: the theorem applied to the task `/t/plan.md`, an unrelated
path, and the tracker file `.ralph/slack_threads.json`, on the empty file
system. -/
theorem C10_witness :
    (writeFeedback (fun _ => none) "/t/plan.md".toList
        "T".toList "u".toList "m".toList).1 "/t/plan.md".toList = none
    ∧ (writeFeedback (fun _ => none) "/t/plan.md".toList
        "T".toList "u".toList "m".toList).1 "/r/.ralph/slack_threads.json".toList = none
    ∧ (writeFeedback (fun _ => none) "/t/plan.md".toList
        "T".toList "u".toList "m".toList).1 "/t/other.md".toList = none := by
  have h := C10_write_feedback_frame (fun _ => none) "/t/plan.md".toList
    "T".toList "u".toList "m".toList "/t/other.md".toList
    "/r/.ralph/slack_threads.json".toList rfl
  exact ⟨h.2.1, h.2.2 (by decide), h.1 (by decide)⟩
